import Mathlib

/-!
Shallow embedding of the SEA decryption subsystem of this repository
(src/openrct2/rct2/SeaDecrypt.cpp): key derivation from a file name,
generation of a 4096-byte pseudo-random mask, the rolling-index stream
decoder, and the facade that strips the 4-byte checksum trailer before
decoding.

Conventions of the embedding:
* `uint32_t` values are `Nat` kept below `2 ^ 32 = 0x100000000`, with an
  explicit `% 0x100000000` wherever the C code can wrap.
* `size_t` values are `Nat` reduced `% 0x10000000000000000` (64-bit targets).
* Byte buffers are `List Nat` whose members are below 256; indexing
  `buf[i]` becomes `List.getD buf i 0`.
* Signed 32-bit `int` intermediates (in the per-byte decoder transform) are
  represented by their two\x27s-complement bit pattern as a `Nat` below
  `2 ^ 32`; `x - y` on such patterns is `(x + 0x100000000 - y) % 0x100000000`.
* `char` is signed on the x86/x64 toolchains this repository targets
  (MSVC, GCC, Clang), so a file-name byte of value 128 or more is
  sign-extended by the integral promotion performed before the XOR in
  `GetEncryptionKey`; `charToU32` reflects that promotion.
* The `while` loop of `CreateMask` carries a fuel parameter bounding the
  number of iterations, returning `none` when the fuel runs out before the
  loop exits; `some` results are exactly the terminating executions.
-/

namespace SeaDecrypt

/-- MASK_SIZE = 0x1000 from SeaDecrypt.cpp. -/
def MASK_SIZE : Nat := 0x1000

/-- Modelled from the spec: the helper `rol32` used by `CreateMask` is defined
in common.h, which is not among the sources in scope.  The spec defines
rotate-left as a circular bit shift on a 32-bit word where bits shifted out of
the high end re-enter at the low end. -/
def rol32 (x shift : Nat) : Nat :=
  ((x <<< shift) ||| (x >>> (32 - shift))) % 0x100000000

/-- Promotion of one file-name byte through `char` (signed on the reference
targets) to `uint32_t`: bytes below 128 keep their value, larger bytes are
sign-extended, giving the pattern `0x100000000 - (256 - b) = 0xFFFFFF00 + b`. -/
def charToU32 (b : Nat) : Nat :=
  if b < 128 then b else 0xFFFFFF00 + b

/-- One accumulation step of `GetEncryptionKey`:
`s = (s + (s << 5)) ^ fileName[i]` on `uint32_t`, where the file-name byte is
promoted through signed `char`. -/
def keyStep (s b : Nat) : Nat :=
  ((s + ((s <<< 5) % 0x100000000)) % 0x100000000) ^^^ charToU32 b

/-- The backward loop of `GetEncryptionKey`:
`for (int i = fileNameLen - 1; i >= 0; i--) s0 = (s0 + (s0 << 5)) ^ fileName[i]`.
The first argument of the recursion is the number of indices still to visit,
so `keyLoopDown name i s` processes indices `i-1, i-2, ..., 0`. -/
def keyLoopDown (name : List Nat) : Nat → Nat → Nat
  | 0, s => s
  | i + 1, s => keyLoopDown name i (keyStep s (name.getD i 0))

/-- The forward loop of `GetEncryptionKey`:
`for (int i = 0; i < fileNameLen; i++) s1 = (s1 + (s1 << 5)) ^ fileName[i]`.
`keyLoopUp name n i s` processes indices `i, i+1, ...` for `n` steps. -/
def keyLoopUp (name : List Nat) : Nat → Nat → Nat → Nat
  | 0, _, s => s
  | n + 1, i, s => keyLoopUp name n (i + 1) (keyStep s (name.getD i 0))

/-- `GetEncryptionKey` from SeaDecrypt.cpp: the pair `(Seed0, Seed1)` obtained
by running the accumulation backward (for `Seed0`) and forward (for `Seed1`)
over the bytes of the file base name. -/
def GetEncryptionKey (fileName : List Nat) : Nat × Nat :=
  (keyLoopDown fileName fileName.length 0, keyLoopUp fileName fileName.length 0 0)

/-- One iteration of the `while (i > 0)` body of `CreateMask`.  Input is the
running seed pair and the number `i` of mask bytes still to fill; output is
the updated seed pair, the updated `i`, and the list of bytes emitted by this
round, in emission order.  The nested conditionals mirror the source: the
counter `i` is decremented (by 4) only in the innermost branch. -/
def maskRound (seed0 seed1 i : Nat) : (Nat × Nat) × Nat × List Nat :=
  let s0 := seed0
  let s1 := seed1 ^^^ 0xF7654321
  let newSeed0 := (rol32 s1 25 + s0) % 0x100000000
  let newSeed1 := rol32 s0 29
  let b1 := (s0 >>> 3) &&& 0xFF
  if 2 ≤ i then
    let b2 := (s0 >>> 11) &&& 0xFF
    if 3 ≤ i then
      let b3 := (s0 >>> 19) &&& 0xFF
      if 4 ≤ i then
        ((newSeed0, newSeed1), i - 4, [b1, b2, b3, (newSeed1 >>> 24) &&& 0xFF])
      else
        ((newSeed0, newSeed1), i, [b1, b2, b3])
    else
      ((newSeed0, newSeed1), i, [b1, b2])
  else
    ((newSeed0, newSeed1), i, [b1])

/-- The `while (i > 0)` loop of `CreateMask`, with fuel bounding the number of
iterations: `some bytes` means the loop exits within `fuel` iterations having
emitted `bytes`; `none` means it is still running after `fuel` iterations. -/
def maskLoop : Nat → Nat → Nat → Nat → Option (List Nat)
  | 0, _, _, i => if i = 0 then some [] else none
  | fuel + 1, seed0, seed1, i =>
    if i = 0 then some [] else
      let r := maskRound seed0 seed1 i
      (maskLoop fuel r.1.1 r.1.2 r.2.1).map (r.2.2 ++ ·)

/-- `CreateMask` from SeaDecrypt.cpp: run the generation loop starting from
`i = MASK_SIZE` bytes to fill.  `MASK_SIZE` units of fuel are more than the
1024 iterations the loop actually needs. -/
def CreateMask (key : Nat × Nat) : Option (List Nat) :=
  maskLoop MASK_SIZE key.1 key.2 MASK_SIZE

/-- The body of `CreateMask` specialised to rounds that emit all four bytes:
`mask4Go s0 s1 n` is the output of `n` consecutive full rounds.  Used to show
that, starting from 4096 remaining bytes, the loop only ever takes the
innermost branch of `maskRound`. -/
def mask4Go : Nat → Nat → Nat → List Nat
  | _, _, 0 => []
  | seed0, seed1, n + 1 =>
    let s0 := seed0
    let s1 := seed1 ^^^ 0xF7654321
    let newSeed0 := (rol32 s1 25 + s0) % 0x100000000
    let newSeed1 := rol32 s0 29
    ((s0 >>> 3) &&& 0xFF) :: ((s0 >>> 11) &&& 0xFF) :: ((s0 >>> 19) &&& 0xFF) ::
      ((newSeed1 >>> 24) &&& 0xFF) :: mask4Go newSeed0 newSeed1 n

/-- The per-byte transform of `Decrypt`:
`(((data[i] - mask8[b]) ^ mask8[c]) + mask8[a]) & 0xFF` computed on 32-bit
`int`, represented here on two\x27s-complement bit patterns: the possibly
negative difference `data[i] - mask8[b]` has pattern
`(x + 0x100000000 - mb) % 0x100000000`, XOR and addition act on patterns, and
the final `& 0xFF` keeps the low byte. -/
def byteTransform (x mb mc ma : Nat) : Nat :=
  (((((x + 0x100000000 - mb) % 0x100000000) ^^^ mc) + ma) % 0x100000000) &&& 0xFF

/-- The loop of `Decrypt` from SeaDecrypt.cpp, with the two rolling indices
`b` and `c` threaded through the recursion over the data bytes. -/
def decryptLoop (mask8 : List Nat) : Nat → Nat → List Nat → List Nat
  | _, _, [] => []
  | b, c, x :: xs =>
    let a := b % MASK_SIZE
    let c1 := c % MASK_SIZE
    let b1 := (a + 1) % MASK_SIZE
    byteTransform x (mask8.getD b1 0) (mask8.getD c1 0) (mask8.getD a 0) ::
      decryptLoop mask8 (a + 7) (c1 + 3) xs

/-- `Decrypt` from SeaDecrypt.cpp: generate the mask for the key and run the
decoding loop with both rolling indices starting at 0.  The in-place mutation
of the C++ code becomes returning the transformed list. -/
def Decrypt (data : List Nat) (key : Nat × Nat) : Option (List Nat) :=
  (CreateMask key).map (fun mask8 => decryptLoop mask8 0 0 data)

/-- `inputSize = data.size() - 4` of `DecryptSea`, computed on `size_t`
(64-bit on the reference targets), so it wraps around for buffers shorter
than 4 bytes. -/
def seaInputSize (n : Nat) : Nat :=
  (n + 0x10000000000000000 - 4) % 0x10000000000000000

/-- `DecryptSea` from SeaDecrypt.cpp, with file reading left to the caller:
the key is derived from the file base name, `inputSize = data.size() - 4` is
computed on `size_t`, the 4 checksum bytes at `data[inputSize..inputSize+4)`
are read by `memcpy` (their value is never used), the buffer is truncated to
`inputSize` and decrypted.  The guard models the bounds of that `memcpy`
read: when `data.size() < 4` the index wraps around and the read (and the
subsequent huge `resize`) is out of bounds — undefined behaviour in the
source, represented here by `none`.  There is no input-size check in the
source code. -/
def DecryptSea (fileName : List Nat) (data : List Nat) : Option (List Nat) :=
  let key := GetEncryptionKey fileName
  let inputSize := seaInputSize data.length
  if inputSize + 4 ≤ data.length then
    Decrypt (data.take inputSize) key
  else
    none

/-! Claim-side definitions: transcriptions of the rounds, steps and transforms
in the words of the specification, to be compared with the embedding above. -/

/-- The key accumulation step as the claim words it: `s = (s + (s << 5)) XOR
byte` modulo `2 ^ 32`, XORing the plain byte value (zero-extended). -/
def claimKeyStep (s b : Nat) : Nat :=
  ((s + (s <<< 5)) % 0x100000000) ^^^ b

/-- The key accumulation step as amended: bytes below 128 are XORed as their
value, bytes of value 128 and above are XORed sign-extended through `char`,
that is as `0xFFFFFF00 + b`. -/
def amendedKeyStep (s b : Nat) : Nat :=
  ((s + (s <<< 5)) % 0x100000000) ^^^ (if b < 128 then b else 0xFFFFFF00 + b)

/-- The mask-generation round exactly as the claim words it: `t0` is the
running seed 0, `t1` is the running seed 1 XORed with `0xF7654321`, the new
running seeds are `RotateLeft(t1, 25) + t0` modulo `2 ^ 32` and
`RotateLeft(t0, 29)`, and the four candidate output bytes are
`(t0 >> 3) & 0xFF`, `(t0 >> 11) & 0xFF`, `(t0 >> 19) & 0xFF` and
`(updated seed1 >> 24) & 0xFF`, in that order. -/
def claimRoundC2 (seed0 seed1 : Nat) : (Nat × Nat) × List Nat :=
  let t0 := seed0
  let t1 := seed1 ^^^ 0xF7654321
  let new0 := (rol32 t1 25 + t0) % 0x100000000
  let new1 := rol32 t0 29
  ((new0, new1),
    [(t0 >>> 3) &&& 0xFF, (t0 >>> 11) &&& 0xFF, (t0 >>> 19) &&& 0xFF,
      (new1 >>> 24) &&& 0xFF])

/-- The per-byte transform as the claim words it: subtract `mask[b]` from the
ciphertext byte modulo 256, XOR with `mask[c]`, add `mask[a]`, keep the low
8 bits. -/
def claimByteC1 (x mb mc ma : Nat) : Nat :=
  ((((x + 256 - mb) % 256) ^^^ mc) + ma) % 256

/-- The decoding loop as the claim words it: positions in ascending order,
rolling indices `b` and `c` starting at 0; at each position
`a = b mod 4096`, `c = c mod 4096`, `b = (a + 1) mod 4096`, the byte is
replaced by the claimed transform, and then `c = c + 3` and `b = a + 7`,
unreduced until the next iteration. -/
def claimDecryptC1 (mask8 : List Nat) : Nat → Nat → List Nat → List Nat
  | _, _, [] => []
  | b, c, x :: xs =>
    let a := b % 4096
    let c1 := c % 4096
    let b1 := (a + 1) % 4096
    claimByteC1 x (mask8.getD b1 0) (mask8.getD c1 0) (mask8.getD a 0) ::
      claimDecryptC1 mask8 (a + 7) (c1 + 3) xs

/-- The index triples `(a_i, b_i, c_i)` of the decoder, precomputed from the
position count alone: `decryptIndices n (b, c)` lists the triples used by the
next `n` positions when the rolling state is `(b, c)`.  The recurrence never
consults the data bytes. -/
def decryptIndices : Nat → Nat × Nat → List (Nat × Nat × Nat)
  | 0, _ => []
  | n + 1, (b, c) =>
    let a := b % MASK_SIZE
    let c1 := c % MASK_SIZE
    let b1 := (a + 1) % MASK_SIZE
    (a, b1, c1) :: decryptIndices n (a + 7, c1 + 3)

/-- The two-pass decoder of the claim: precompute the index triples for
positions `0 .. N-1` from the buffer length alone, then apply the per-byte
transform position-wise. -/
def decryptPrecomputed (mask8 data : List Nat) : List Nat :=
  List.zipWith
    (fun x t => byteTransform x (mask8.getD t.2.1 0) (mask8.getD t.2.2 0)
      (mask8.getD t.1 0))
    data (decryptIndices data.length (0, 0))

theorem keyStep_eq_amendedKeyStep : keyStep = amendedKeyStep := by
  funext s b
  unfold keyStep amendedKeyStep charToU32
  have h1 : (s + (s <<< 5) % 0x100000000) % 0x100000000
      = (s + s <<< 5) % 0x100000000 := by
    generalize s <<< 5 = t
    omega
  rw [h1]

theorem keyLoopUp_eq_foldl (name : List Nat) :
    ∀ (n i s : Nat), i + n = name.length →
      keyLoopUp name n i s = (name.drop i).foldl keyStep s := by
  intro n
  induction n with
  | zero =>
    intro i s h
    have hi : i = name.length := by omega
    subst hi
    simp [keyLoopUp, List.drop_length]
  | succ n ih =>
    intro i s h
    have hi : i < name.length := by omega
    have hg : name.getD i 0 = name[i] := by
      simp [List.getD_eq_getElem?_getD, List.getElem?_eq_getElem hi]
    simp only [keyLoopUp]
    rw [hg, ih (i + 1) (keyStep s name[i]) (by omega),
      List.drop_eq_getElem_cons hi, List.foldl_cons]

theorem keyLoopDown_eq_foldl (name : List Nat) :
    ∀ (i s : Nat), i ≤ name.length →
      keyLoopDown name i s = ((name.take i).reverse).foldl keyStep s := by
  intro i
  induction i with
  | zero =>
    intro s _
    simp [keyLoopDown]
  | succ i ih =>
    intro s h
    have hi : i < name.length := by omega
    have hg : name.getD i 0 = name[i] := by
      simp [List.getD_eq_getElem?_getD, List.getElem?_eq_getElem hi]
    simp only [keyLoopDown]
    rw [hg, ih (keyStep s name[i]) (by omega), List.take_succ,
      List.getElem?_eq_getElem hi]
    simp only [Option.toList_some, List.reverse_append, List.reverse_singleton,
      List.singleton_append, List.foldl_cons]

theorem getEncryptionKey_eq_folds (name : List Nat) :
    GetEncryptionKey name
      = ((name.reverse).foldl keyStep 0, name.foldl keyStep 0) := by
  unfold GetEncryptionKey
  rw [keyLoopDown_eq_foldl name name.length 0 (Nat.le_refl _),
    keyLoopUp_eq_foldl name name.length 0 0 (by omega),
    List.take_length, List.drop_zero]

/-- C3 counterexample: on the single-byte name `[0x80]` the derived key is not
the fold of the claim step `s = (s + (s << 5)) XOR byte` over the name: the
code XORs the sign-extended `char` value `0xFFFFFF80`, not the byte `0x80`,
so both seeds come out as `0xFFFFFF80` instead of the claimed `0x80`. -/
theorem keyDerivation_C3_counterexample :
    GetEncryptionKey [0x80] = (0xFFFFFF80, 0xFFFFFF80) ∧
    (([0x80] : List Nat).reverse.foldl claimKeyStep 0,
        ([0x80] : List Nat).foldl claimKeyStep 0) = (0x80, 0x80) ∧
    GetEncryptionKey [0x80]
      ≠ (([0x80] : List Nat).reverse.foldl claimKeyStep 0,
          ([0x80] : List Nat).foldl claimKeyStep 0) := by
  refine ⟨by decide, by decide, by decide⟩

/-- C3 as amended: `Seed0` folds the accumulation step over the name from the
last byte to the first, `Seed1` folds it from the first byte to the last, both
starting from 0, where the accumulation step is
`s = (s + (s << 5)) XOR v` modulo `2 ^ 32` with `v` the byte value for bytes
below 0x80 and the sign-extended value `0xFFFFFF00 + byte` for larger bytes;
the name `[0x78]` yields seeds `(0x78, 0x78)` and the empty name `(0, 0)`. -/
theorem keyDerivation_C3_amended :
    (∀ name : List Nat, GetEncryptionKey name
        = ((name.reverse).foldl amendedKeyStep 0, name.foldl amendedKeyStep 0)) ∧
    GetEncryptionKey [0x78] = (0x78, 0x78) ∧
    GetEncryptionKey [] = (0, 0) := by
  refine ⟨?_, by decide, by decide⟩
  intro name
  rw [getEncryptionKey_eq_folds, keyStep_eq_amendedKeyStep]

/-- C6 counterexample: the byte `0x80` is not XORed into the accumulator as
its zero-extended 8-bit value: starting from accumulator 0, the step yields
`0xFFFFFF80` (the sign-extended pattern), not `0x80`. -/
theorem keyStep_C6_counterexample :
    keyStep 0 0x80 = 0xFFFFFF80 ∧ keyStep 0 0x80 ≠ 0x80 := by
  refine ⟨by decide, by decide⟩

/-- C6 as amended: for every accumulator value and every byte of the name,
the value XORed into the key-derivation accumulator is the unsigned byte value
for bytes below 0x80, and the sign-extended value `0xFFFFFF00 + byte` for
bytes 0x80 and above (the byte goes through signed `char` before the XOR). -/
theorem keyStep_C6_amended (s b : Nat) (_hb : b < 256) :
    keyStep s b
      = ((s + (s <<< 5)) % 0x100000000) ^^^
          (if b < 128 then b else 0xFFFFFF00 + b) := by
  rw [keyStep_eq_amendedKeyStep]
  rfl

theorem keyStep_C6_amended_witness :
    (0xC8 : Nat) < 256 ∧
    keyStep 7 0xC8
      = ((7 + (7 <<< 5)) % 0x100000000) ^^^
          (if (0xC8 : Nat) < 128 then 0xC8 else 0xFFFFFF00 + 0xC8) :=
  ⟨by decide, keyStep_C6_amended 7 0xC8 (by decide)⟩

/-- C2: every round of the generator updates the running seeds exactly as the
claim states and emits, in order, the first `min 4 i` of the four claimed byte
values, where `i` is the number of mask bytes still to fill. -/
theorem maskRound_C2_matches_claim (seed0 seed1 i : Nat) (h : 1 ≤ i) :
    (maskRound seed0 seed1 i).1 = (claimRoundC2 seed0 seed1).1 ∧
    (maskRound seed0 seed1 i).2.2 = (claimRoundC2 seed0 seed1).2.take (min 4 i) := by
  rcases i with _ | _ | _ | _ | n
  · omega
  · simp [maskRound, claimRoundC2]
  · simp [maskRound, claimRoundC2]
  · simp [maskRound, claimRoundC2]
  · have h2 : 2 ≤ n + 4 := by omega
    have h3 : 3 ≤ n + 4 := by omega
    have h4 : 4 ≤ n + 4 := by omega
    have hm : min 4 (n + 4) = 4 := by omega
    simp [maskRound, claimRoundC2, h2, h3, h4, hm]

theorem maskRound_C2_matches_claim_witness :
    (1 : Nat) ≤ 3 ∧
    ((maskRound 1 2 3).1 = (claimRoundC2 1 2).1 ∧
      (maskRound 1 2 3).2.2 = (claimRoundC2 1 2).2.take (min 4 3)) :=
  ⟨by decide, maskRound_C2_matches_claim 1 2 3 (by decide)⟩

/-- C7 counterexample: in a round entered with 3 bytes remaining, 3 bytes are
emitted but the remaining-byte counter stays at 3; it does not decrease by the
number of emitted bytes. -/
theorem maskRound_C7_counterexample :
    ((maskRound 0 0 3).2.2).length = 3 ∧
    (maskRound 0 0 3).2.1 = 3 ∧
    (maskRound 0 0 3).2.1 ≠ 3 - ((maskRound 0 0 3).2.2).length := by
  refine ⟨by decide, by decide, by decide⟩

/-- C7 as amended: in every round entered with fewer than 4 bytes remaining,
exactly the remaining number of bytes (1, 2 or 3) is emitted, but the
remaining-byte counter is left unchanged (only the four-byte branch decrements
it); such rounds never occur when generation starts from 4096. -/
theorem maskRound_C7_amended (seed0 seed1 i : Nat) (h1 : 0 < i) (h2 : i < 4) :
    ((maskRound seed0 seed1 i).2.2).length = i ∧
    (maskRound seed0 seed1 i).2.1 = i := by
  interval_cases i
  · simp [maskRound]
  · simp [maskRound]
  · simp [maskRound]

theorem maskRound_C7_amended_witness :
    (0 : Nat) < 2 ∧ (2 : Nat) < 4 ∧
    (((maskRound 5 7 2).2.2).length = 2 ∧ (maskRound 5 7 2).2.1 = 2) :=
  ⟨by decide, by decide, maskRound_C7_amended 5 7 2 (by decide) (by decide)⟩

theorem maskLoop_four (n : Nat) :
    ∀ (fuel seed0 seed1 : Nat), n ≤ fuel →
      maskLoop fuel seed0 seed1 (4 * n) = some (mask4Go seed0 seed1 n) := by
  induction n with
  | zero =>
    intro fuel s0 s1 _
    cases fuel <;> simp [maskLoop, mask4Go]
  | succ n ih =>
    intro fuel s0 s1 h
    obtain ⟨f, rfl⟩ : ∃ f, fuel = f + 1 := ⟨fuel - 1, by omega⟩
    have hne : ¬(4 * (n + 1) = 0) := by omega
    have h2 : 2 ≤ 4 * (n + 1) := by omega
    have h3 : 3 ≤ 4 * (n + 1) := by omega
    have h4 : 4 ≤ 4 * (n + 1) := by omega
    have hsub : 4 * (n + 1) - 4 = 4 * n := by omega
    simp only [maskLoop, hne, if_false, maskRound, h2, h3, h4, if_true, hsub,
      ih f _ _ (by omega), Option.map_some]
    simp [mask4Go]

/-- Every execution of the generation loop that starts from a multiple of 4
remaining bytes takes only full four-byte rounds; `CreateMask` starts from
4096 = 4 * 1024 and therefore terminates after exactly 1024 full rounds. -/
theorem createMask_eq (key : Nat × Nat) :
    CreateMask key = some (mask4Go key.1 key.2 1024) := by
  unfold CreateMask MASK_SIZE
  have h : (0x1000 : Nat) = 4 * 1024 := by norm_num
  rw [h, maskLoop_four 1024 (4 * 1024) key.1 key.2 (by omega)]

theorem mask4Go_succ (seed0 seed1 n : Nat) :
    mask4Go seed0 seed1 (n + 1)
      = ((seed0 >>> 3) &&& 0xFF) :: ((seed0 >>> 11) &&& 0xFF) ::
          ((seed0 >>> 19) &&& 0xFF) ::
          ((rol32 seed0 29 >>> 24) &&& 0xFF) ::
          mask4Go ((rol32 (seed1 ^^^ 0xF7654321) 25 + seed0) % 0x100000000)
            (rol32 seed0 29) n :=
  rfl

theorem mask4Go_length (n : Nat) :
    ∀ (seed0 seed1 : Nat), (mask4Go seed0 seed1 n).length = 4 * n := by
  induction n with
  | zero => intro s0 s1; simp [mask4Go]
  | succ n ih =>
    intro s0 s1
    simp only [mask4Go, List.length_cons, ih]
    omega

/-- C10: mask generation terminates for every key: starting from 4096
remaining bytes every iteration takes the innermost (four-byte) branch of the
round and decreases the counter by 4, so the loop runs exactly 1024 full
rounds; the partial-emission branches are never executed. -/
theorem maskGeneration_C10_terminates (key : Nat × Nat) :
    CreateMask key = some (mask4Go key.1 key.2 1024) :=
  createMask_eq key

/-- C8: for every key the generated mask is exactly `MASK_SIZE = 4096` bytes;
every position of the returned buffer was emitted by some round. -/
theorem maskLength_C8 (key : Nat × Nat) :
    ∃ mask8, CreateMask key = some mask8 ∧ mask8.length = MASK_SIZE := by
  refine ⟨mask4Go key.1 key.2 1024, createMask_eq key, ?_⟩
  rw [mask4Go_length]
  rfl

/-- C5 counterexample: for the key `{0, 0}` the first byte of the generated
mask is 0 (it is `(t0 >> 3) & 0xFF` for the pre-update seed `t0 = 0`), while
the formula of the claim, `(RotateLeft(0 XOR 0xF7654321, 25) >> 3) & 0xFF`,
evaluates to 0x50. -/
theorem maskFirstByte_C5_counterexample :
    (CreateMask (0, 0)).map (fun l => l.headD 0) = some 0 ∧
    ((rol32 (0 ^^^ 0xF7654321) 25) >>> 3) &&& 0xFF = 0x50 ∧
    (0 : Nat) ≠ 0x50 := by
  refine ⟨?_, by decide, by decide⟩
  rw [createMask_eq, show (1024 : Nat) = 1023 + 1 by norm_num, mask4Go_succ]
  simp [List.headD]

/-- C5 as amended: for the key `{0, 0}` the first byte of the generated mask
equals `(t0 >> 3) & 0xFF` computed from the pre-update running seed
`t0 = 0`, that is 0; the formula of the original claim, built from the updated
`runningSeed0 = RotateLeft(0 XOR 0xF7654321, 25)`, instead gives the mask byte
at offset 4, the first byte of the second round. -/
theorem maskFirstByte_C5_amended :
    (CreateMask (0, 0)).map (fun l => l.headD 0) = some ((0 >>> 3) &&& 0xFF) ∧
    (CreateMask (0, 0)).map (fun l => l.getD 4 0)
      = some (((rol32 (0 ^^^ 0xF7654321) 25) >>> 3) &&& 0xFF) := by
  constructor
  · rw [createMask_eq, show (1024 : Nat) = 1023 + 1 by norm_num, mask4Go_succ]
    simp [List.headD]
  · rw [createMask_eq, show (1024 : Nat) = 1023 + 1 by norm_num, mask4Go_succ,
      show (1023 : Nat) = 1022 + 1 by norm_num, mask4Go_succ]
    simp only [Option.map_some, List.getD_cons_succ, List.getD_cons_zero,
      Option.some.injEq]
    decide

theorem xor_mod_two_pow_emb (a b n : Nat) :
    (a ^^^ b) % 2 ^ n = (a % 2 ^ n) ^^^ (b % 2 ^ n) := by
  apply Nat.eq_of_testBit_eq
  intro i
  simp only [Nat.testBit_mod_two_pow, Nat.testBit_xor]
  by_cases h : i < n <;> simp [h]

/-- The 32-bit `int` transform of the source equals the modulo-256 transform
of the claim on byte-sized inputs: the low byte of the two\x27s-complement
difference is the modulo-256 difference, and XOR and addition act on the low
byte independently of the higher bits. -/
theorem byteTransform_eq_claimByte (x mb mc ma : Nat) (hx : x < 256)
    (hmb : mb < 256) (hmc : mc < 256) :
    byteTransform x mb mc ma = claimByteC1 x mb mc ma := by
  unfold byteTransform claimByteC1
  have hand : ∀ y : Nat, y &&& 0xFF = y % 256 := by
    intro y
    simpa using Nat.and_pow_two_sub_one_eq_mod y 8
  rw [hand, Nat.mod_mod_of_dvd _ (by norm_num : (256 : Nat) ∣ 0x100000000)]
  have hxor : (((x + 0x100000000 - mb) % 0x100000000) ^^^ mc) % 256
      = ((x + 256 - mb) % 256) ^^^ mc := by
    have h1 := xor_mod_two_pow_emb ((x + 0x100000000 - mb) % 0x100000000) mc 8
    have h2 : ((x + 0x100000000 - mb) % 0x100000000) % 2 ^ 8
        = (x + 256 - mb) % 256 := by omega
    have h3 : mc % 2 ^ 8 = mc := Nat.mod_eq_of_lt (by omega)
    calc (((x + 0x100000000 - mb) % 0x100000000) ^^^ mc) % 256
        = (((x + 0x100000000 - mb) % 0x100000000) ^^^ mc) % 2 ^ 8 := by
          norm_num
      _ = ((x + 256 - mb) % 256) ^^^ mc := by rw [h1, h2, h3]
  rw [Nat.add_mod (((x + 0x100000000 - mb) % 0x100000000) ^^^ mc) ma 256, hxor]
  rw [Nat.add_mod ((((x + 256 - mb) % 256) ^^^ mc)) ma 256]
  generalize ((x + 256 - mb) % 256) ^^^ mc = w
  omega

theorem decryptLoop_eq_claimDecrypt_go (mask8 : List Nat)
    (hmask : ∀ v ∈ mask8, v < 256) :
    ∀ (data : List Nat) (b c : Nat), (∀ x ∈ data, x < 256) →
      decryptLoop mask8 b c data = claimDecryptC1 mask8 b c data := by
  have hget : ∀ i : Nat, mask8.getD i 0 < 256 := by
    intro i
    rw [List.getD_eq_getElem?_getD]
    cases hh : mask8[i]? with
    | none => simp
    | some v => simpa using hmask v (List.getElem?_mem hh)
  intro data
  induction data with
  | nil => intro b c _; rfl
  | cons x xs ih =>
    intro b c hd
    simp only [decryptLoop, claimDecryptC1, MASK_SIZE]
    rw [byteTransform_eq_claimByte _ _ _ _ (hd x (List.mem_cons_self x xs))
      (hget _) (hget _),
      ih _ _ (fun y hy => hd y (List.mem_cons_of_mem x hy))]

/-- C1: on every 4096-byte mask of byte values and every ciphertext buffer of
byte values, the decoder of the source computes exactly the sequential
algorithm of the claim: positions in ascending order, `b` and `c` starting at
0, `a = b mod 4096`, `c = c mod 4096`, `b = (a + 1) mod 4096`, the byte
replaced by `(((ciphertext[i] - mask[b]) XOR mask[c]) + mask[a]) mod 256` in
that operation order, and then `c = c + 3` and `b = a + 7` unreduced until the
next iteration. -/
theorem decrypt_C1_matches_claim (mask8 data : List Nat)
    (_hlen : mask8.length = MASK_SIZE) (hmask : ∀ v ∈ mask8, v < 256)
    (hdata : ∀ x ∈ data, x < 256) :
    decryptLoop mask8 0 0 data = claimDecryptC1 mask8 0 0 data :=
  decryptLoop_eq_claimDecrypt_go mask8 hmask data 0 0 hdata

theorem decrypt_C1_matches_claim_witness :
    (List.replicate MASK_SIZE 3).length = MASK_SIZE ∧
    decryptLoop (List.replicate MASK_SIZE 3) 0 0 [1, 250, 3]
      = claimDecryptC1 (List.replicate MASK_SIZE 3) 0 0 [1, 250, 3] :=
  ⟨by simp, decrypt_C1_matches_claim (List.replicate MASK_SIZE 3) [1, 250, 3]
    (by simp)
    (by
      intro v hv
      rw [List.eq_of_mem_replicate hv]
      decide)
    (by decide)⟩

theorem decryptLoop_eq_zipWith_indices (mask8 : List Nat) :
    ∀ (data : List Nat) (b c : Nat),
      decryptLoop mask8 b c data
        = List.zipWith
            (fun x t => byteTransform x (mask8.getD t.2.1 0)
              (mask8.getD t.2.2 0) (mask8.getD t.1 0))
            data (decryptIndices data.length (b, c)) := by
  intro data
  induction data with
  | nil => intro b c; rfl
  | cons x xs ih =>
    intro b c
    simp only [decryptLoop, List.length_cons, decryptIndices, List.zipWith]
    rw [ih]

/-- C9: the index triples the decoder uses at each position are a function of
the position alone (`decryptIndices` consults only the buffer length, never
the data), and applying the per-byte transform with the precomputed triples
yields exactly the output of the sequential one-pass decoder, for every mask
and every buffer. -/
theorem decrypt_C9_precompute (mask8 data : List Nat) :
    decryptLoop mask8 0 0 data = decryptPrecomputed mask8 data :=
  decryptLoop_eq_zipWith_indices mask8 data 0 0

/-- C4: the facade has no input-size check.  On a raw buffer of fewer than 4
bytes, `inputSize = data.size() - 4` wraps around on `size_t`, so the
checksum `memcpy` reads (and the truncating `resize` is asked for) a range
starting beyond the end of the buffer: undefined behaviour (`none` in this
embedding), not a clean InvalidInputSize error. -/
theorem decryptSea_C4_undersized (fileName data : List Nat)
    (h : data.length < 4) :
    DecryptSea fileName data = none ∧
    data.length < seaInputSize data.length := by
  constructor
  · unfold DecryptSea
    rw [if_neg]
    unfold seaInputSize
    omega
  · unfold seaInputSize
    omega

theorem decryptSea_C4_undersized_witness :
    DecryptSea [0x78] [1, 2] = none ∧
    ([1, 2] : List Nat).length < seaInputSize ([1, 2] : List Nat).length :=
  decryptSea_C4_undersized [0x78] [1, 2] (by decide)

end SeaDecrypt
